import Mathlib

/-!
Verification of the "Little Yellow Book" vocabulary-lookup application.

This file gives a shallow embedding of the application's data model and of
the pure content of its handlers (history insertion, search orchestration,
audio trigger guard, story generation, history persistence through JSON),
and proves the spec's testable properties about them.

The embedding follows the TypeScript source: `types.ts` for the data model,
and the `App` component (`addToHistory`, `handleSearch`, `handlePlayAudio`,
`handleGenerateStory`, the load/save-history effects) for the operations.
Asynchronous handlers are modelled as pure transition functions taking the
outcome of the external AI call as an explicit argument and returning the
new state together with the list of requests issued to external services.
-/

/-- Mirrors `DictionaryResult` from `types.ts`. -/
structure DictionaryResult where
  word : String
  reading : String
  romaji : String
  definition_cn : String
  definition_jp : String
  example_jp : String
  example_cn : String
deriving DecidableEq

/-- Mirrors `WordHistoryItem` from `types.ts`. -/
structure WordHistoryItem where
  id : String
  word : String
  reading : String
  definition : String
  definition_jp : String
  example_jp : String
  example_cn : String
  timestamp : Nat
deriving DecidableEq

/-- Mirrors `DictionaryState` from `types.ts`. -/
structure DictionaryState where
  data : Option DictionaryResult
  imageUrl : Option String
  isLoadingText : Bool
  isLoadingImage : Bool
  isLoadingAudioWord : Bool
  isLoadingAudioSentence : Bool
  isAnalyzingImage : Bool
  isGeneratingStory : Bool
  error : Option String
  history : List WordHistoryItem
  dailyStory : Option String
deriving DecidableEq

/-- Mirrors `ViewMode` from `types.ts`. -/
inductive ViewMode where
  | SEARCH : ViewMode
  | WORDBOOK : ViewMode
deriving DecidableEq

/-- The component-level state of the `App` component: the `query` and `view`
`useState` cells together with the `DictionaryState` cell. -/
structure AppState where
  query : String
  view : ViewMode
  dict : DictionaryState
deriving DecidableEq

/-- A request issued to an external collaborator (the AI service), recorded
so that theorems can speak about which calls a handler triggers. -/
inductive Request where
  | fetchDefinition : String → Request
  | generateImage : String → String → Request
  | generateSpeech : String → Request
  | generateStory : List WordHistoryItem → Request
deriving DecidableEq

/-- The initial `DictionaryState` of the `App` component. -/
def initialDictionaryState : DictionaryState :=
  { data := none
    imageUrl := none
    isLoadingText := false
    isLoadingImage := false
    isLoadingAudioWord := false
    isLoadingAudioSentence := false
    isAnalyzingImage := false
    isGeneratingStory := false
    error := none
    history := []
    dailyStory := none }

/-- The new `WordHistoryItem` built inside `addToHistory`:
`id = Date.now().toString()`, the text fields copied from the
`DictionaryResult`, `timestamp = Date.now()`.  The current time is the
explicit argument `now`. -/
def mkHistoryItem (result : DictionaryResult) (now : Nat) : WordHistoryItem :=
  { id := toString now
    word := result.word
    reading := result.reading
    definition := result.definition_cn
    definition_jp := result.definition_jp
    example_jp := result.example_jp
    example_cn := result.example_cn
    timestamp := now }

/-- The collection-level content of `addToHistory`: if some item with the
same `word` already exists the history is returned unchanged, otherwise the
freshly built item is prepended to the front. -/
def appendHistory (result : DictionaryResult) (now : Nat)
    (history : List WordHistoryItem) : List WordHistoryItem :=
  if history.any (fun item => item.word == result.word) then history
  else mkHistoryItem result now :: history

/-- `addToHistory` as a transition on the whole `DictionaryState`. -/
def addToHistory (result : DictionaryResult) (now : Nat)
    (s : DictionaryState) : DictionaryState :=
  { s with history := appendHistory result now s.history }

/-- A character the JavaScript `String.prototype.trim` removes: the
whitespace code points and line terminators. -/
def isJsWs (c : Char) : Bool :=
  c.toNat = 9 || c.toNat = 10 || c.toNat = 11 || c.toNat = 12 ||
  c.toNat = 13 || c.toNat = 32 || c.toNat = 160 || c.toNat = 5760 ||
  (8192 ≤ c.toNat && c.toNat ≤ 8202) || c.toNat = 8232 ||
  c.toNat = 8233 || c.toNat = 8239 || c.toNat = 8287 ||
  c.toNat = 12288 || c.toNat = 65279

/-- The JavaScript `String.prototype.trim`: strips leading and trailing
whitespace. -/
def jsTrim (s : String) : String :=
  String.mk (((s.data.dropWhile isJsWs).reverse.dropWhile isJsWs).reverse)

/-- `handleSearch`, collapsed over the awaited outcome of
`fetchDictionaryDefinition` (passed in as `outcome`).  Returns the new
component state together with the requests issued.  Mirrors the source:
an empty-after-trim search term returns before any mutation; otherwise the
loading flags are set and the previous result and error cleared; on failure
a user-facing message is set and both loading flags cleared; on success the
result is stored, appended to the history, and `generateImage` is called. -/
def handleSearch (searchTerm : String) (now : Nat) (a : AppState)
    (outcome : Except Unit DictionaryResult) : AppState × List Request :=
  if jsTrim searchTerm = "" then (a, [])
  else
    let d0 : DictionaryState :=
      { a.dict with
          isLoadingText := true
          isLoadingImage := true
          error := none
          data := none
          imageUrl := none }
    match outcome with
    | Except.error _ =>
        ({ a with
             view := ViewMode.SEARCH
             dict :=
               { d0 with
                   error := some "Failed to find the word. Please try again."
                   isLoadingText := false
                   isLoadingImage := false } },
         [Request.fetchDefinition searchTerm])
    | Except.ok definition =>
        let d1 : DictionaryState :=
          { d0 with data := some definition, isLoadingText := false }
        ({ a with
             view := ViewMode.SEARCH
             query := definition.word
             dict := addToHistory definition now d1 },
         [Request.fetchDefinition searchTerm,
          Request.generateImage definition.word definition.definition_cn])

/-- The two audio phases of `handlePlayAudio`. -/
inductive AudioType where
  | word : AudioType
  | sentence : AudioType
deriving DecidableEq

/-- The phase-specific loading flag consulted by `handlePlayAudio`
(`state[loadingKey]`). -/
def audioFlag (t : AudioType) (s : DictionaryState) : Bool :=
  match t with
  | AudioType.word => s.isLoadingAudioWord
  | AudioType.sentence => s.isLoadingAudioSentence

/-- The synchronous trigger step of `handlePlayAudio`: if the phase-specific
loading flag is already set the handler returns at once (no request, state
unchanged); otherwise it sets the flag and issues the `generateSpeech`
request. -/
def handlePlayAudio (text : String) (t : AudioType)
    (s : DictionaryState) : DictionaryState × List Request :=
  if audioFlag t s then (s, [])
  else
    match t with
    | AudioType.word =>
        ({ s with isLoadingAudioWord := true }, [Request.generateSpeech text])
    | AudioType.sentence =>
        ({ s with isLoadingAudioSentence := true }, [Request.generateSpeech text])

/-- `handleGenerateStory`, collapsed over the awaited outcome of
`generateDailyStory`.  Mirrors the source: a no-op when the history is
empty or a story is already generating; otherwise issues the request over
`state.history.slice(0, 10)`; on success stores the story; on failure sets
`error = "Failed to generate story."`; either way clears the flag. -/
def handleGenerateStory (s : DictionaryState)
    (outcome : Except Unit String) : DictionaryState × List Request :=
  if s.history.length = 0 || s.isGeneratingStory then (s, [])
  else
    let s1 : DictionaryState := { s with isGeneratingStory := true, dailyStory := none }
    match outcome with
    | Except.ok story =>
        ({ s1 with dailyStory := some story, isGeneratingStory := false },
         [Request.generateStory (s.history.take 10)])
    | Except.error _ =>
        ({ s1 with error := some "Failed to generate story.", isGeneratingStory := false },
         [Request.generateStory (s.history.take 10)])

/-- A sample lookup result used to instantiate theorems with hypotheses. -/
def sampleResultA : DictionaryResult :=
  { word := "neko"
    reading := "neko-r"
    romaji := "neko"
    definition_cn := "cat-cn"
    definition_jp := "cat-jp"
    example_jp := "ex-jp"
    example_cn := "ex-cn" }

/-- A second sample result sharing `sampleResultA`'s `word` field. -/
def sampleResultA2 : DictionaryResult :=
  { sampleResultA with reading := "neko-r2", definition_cn := "cat-cn2" }

/-- A sample result with a `word` distinct from `sampleResultA`'s. -/
def sampleResultB : DictionaryResult :=
  { word := "inu"
    reading := "inu-r"
    romaji := "inu"
    definition_cn := "dog-cn"
    definition_jp := "dog-jp"
    example_jp := "ex2-jp"
    example_cn := "ex2-cn" }

/-- A state whose audio-for-word phase is currently loading. -/
def loadingAudioState : DictionaryState :=
  { initialDictionaryState with isLoadingAudioWord := true }

/-- A state holding one history item, idle otherwise. -/
def oneItemState : DictionaryState :=
  { initialDictionaryState with history := [mkHistoryItem sampleResultA 1] }

/-- A state holding twelve history items, idle otherwise. -/
def twelveItemState : DictionaryState :=
  { initialDictionaryState with
      history := (List.range 12).map (fun i => mkHistoryItem sampleResultA i) }

/-- An `AppState` at the initial dictionary state. -/
def initialAppState : AppState :=
  { query := "", view := ViewMode.SEARCH, dict := initialDictionaryState }

/-- Modelled from the spec: `decodeAudioData` of `utils/audioUtils.ts` is
imported by the `App` component but the file itself is not present under
`src/`.  Per the spec it interprets the byte sequence as signed 16-bit
little-endian mono PCM, maps each sample to the normalized range by
dividing by the maximum magnitude of the signed 16-bit range (32768), and
fails with a format error when the byte count is odd (incomplete sample).
This converts one little-endian byte pair to its normalized sample. -/
def pcmSample (lo hi : Nat) : ℚ :=
  let raw : Nat := lo + 256 * hi
  let signed : Int := if 32768 ≤ raw then (raw : Int) - 65536 else (raw : Int)
  (signed : ℚ) / 32768

/-- Modelled from the spec: the decode loop of `decodeAudioData`
(`utils/audioUtils.ts`, absent from `src/`): an even-length byte sequence
decodes pairwise into normalized samples; an odd-length one is a format
error. -/
def decodeAudioData : List Nat → Except String (List ℚ)
  | [] => Except.ok []
  | [_] => Except.error "Invalid PCM data: incomplete 16-bit sample"
  | lo :: hi :: rest =>
      match decodeAudioData rest with
      | Except.ok tail => Except.ok (pcmSample lo hi :: tail)
      | Except.error e => Except.error e

/-- The reference encoding of signed 16-bit samples as little-endian byte
pairs, used to state PCM decode correctness. -/
def encodePCM16LE (samples : List Int) : List Nat :=
  samples.foldr
    (fun s acc =>
      let u : Nat := (s % 65536).toNat
      u % 256 :: u / 256 :: acc)
    []

/-- The double-quote character, the JSON string delimiter. -/
def qC : Char := '"'

/-- The backslash character, the JSON escape lead-in. -/
def bsC : Char := '\\'

/-- The opening square bracket delimiting a JSON array. -/
def lbkC : Char := '['

/-- The closing square bracket delimiting a JSON array. -/
def rbkC : Char := ']'

/-- The opening curly brace delimiting a JSON object. -/
def lbrC : Char := Char.ofNat 123

/-- The closing curly brace delimiting a JSON object. -/
def rbrC : Char := Char.ofNat 125

/-- The comma separating JSON array elements and object fields. -/
def cmC : Char := ','

/-- The colon separating a JSON object key from its value. -/
def clC : Char := ':'

/-- Whether a character is a decimal digit. -/
def isDig (c : Char) : Bool := 48 ≤ c.toNat && c.toNat ≤ 57

/-- The character for a decimal digit value. -/
def dChr (d : Nat) : Char := Char.ofNat (48 + d)

/-- The decimal value of a digit character. -/
def dVal (c : Char) : Nat := c.toNat - 48

/-- The decimal rendering of a natural number, most significant digit
first, as emitted by `JSON.stringify` for the integer `timestamp`. -/
def serNat (n : Nat) : List Char :=
  if n = 0 then [dChr 0] else (Nat.digits 10 n).reverse.map dChr

/-- The value of a most-significant-first run of digit characters. -/
def digitsVal (l : List Char) : Nat :=
  l.foldl (fun acc c => acc * 10 + dVal c) 0

/-- Splits the longest leading run of digit characters off a character
list. -/
def takeDigits : List Char → List Char × List Char
  | [] => ([], [])
  | c :: rest =>
      if isDig c then
        let p := takeDigits rest
        (c :: p.1, p.2)
      else ([], c :: rest)

/-- A JSON whitespace character, as `JSON.parse` skips between tokens:
space, tab, line feed, carriage return. -/
def isJsonWs (c : Char) : Bool :=
  c.toNat = 32 || c.toNat = 9 || c.toNat = 10 || c.toNat = 13

/-- Skips JSON whitespace. -/
def skipWs (l : List Char) : List Char := l.dropWhile isJsonWs

/-- Parses the integer-part digits of a JSON number, rejecting a leading
zero followed by further digits, as `JSON.parse` does. -/
def parseIntDigits (l : List Char) : Option (List Char × List Char) :=
  match l with
  | [] => none
  | c :: _ =>
      if isDig c then
        let p := takeDigits l
        if 1 < p.1.length && p.1.head? == some (dChr 0) then none
        else some p
      else none

/-- Parses the optional fraction part of a JSON number, returning its
value; a dot must be followed by at least one digit. -/
def parseFrac (l : List Char) : Option (ℚ × List Char) :=
  match l with
  | c :: t =>
      if c = '.' then
        match t with
        | d :: _ =>
            if isDig d then
              let p := takeDigits t
              some ((digitsVal p.1 : ℚ) / 10 ^ p.1.length, p.2)
            else none
        | [] => none
      else some (0, l)
  | [] => some (0, l)

/-- Parses the optional exponent part of a JSON number, returning the
multiplier it denotes; an `e` must be followed by at least one digit after
an optional sign. -/
def parseExp (l : List Char) : Option (ℚ × List Char) :=
  match l with
  | c :: t =>
      if c = 'e' || c = 'E' then
        let sp : Bool × List Char :=
          match t with
          | c2 :: t2 =>
              if c2 = '-' then (true, t2)
              else if c2 = '+' then (false, t2)
              else (false, t)
          | [] => (false, t)
        match sp.2 with
        | d :: _ =>
            if isDig d then
              let p := takeDigits sp.2
              some (if sp.1 then (1 : ℚ) / 10 ^ digitsVal p.1
                    else (10 : ℚ) ^ digitsVal p.1, p.2)
            else none
        | [] => none
      else some (1, l)
  | [] => some (1, l)

/-- Parses a JSON number — optional minus sign, integer part without
leading zeros, optional fraction, optional exponent — returning its exact
rational value. -/
def parseNumber (input : List Char) : Option (ℚ × List Char) :=
  let sp : Bool × List Char :=
    match input with
    | c :: t => if c = '-' then (true, t) else (false, input)
    | [] => (false, input)
  match parseIntDigits sp.2 with
  | none => none
  | some (ids, l2) =>
      if l2.head? == some '.' || l2.head? == some 'e' || l2.head? == some 'E'
      then
        match parseFrac l2 with
        | none => none
        | some (fq, l3) =>
            match parseExp l3 with
            | none => none
            | some (em, l4) =>
                let v : ℚ := ((digitsVal ids : ℚ) + fq) * em
                some (if sp.1 then -v else v, l4)
      else
        some (if sp.1 then -((digitsVal ids : ℚ)) else ((digitsVal ids : ℚ)),
          l2)

/-- The lowercase hexadecimal digit character for a value below 16. -/
def hexC (n : Nat) : Char :=
  if n < 10 then Char.ofNat (48 + n) else Char.ofNat (87 + n)

/-- The value of a hexadecimal digit character, if it is one. -/
def hexV (c : Char) : Option Nat :=
  if 48 ≤ c.toNat && c.toNat ≤ 57 then some (c.toNat - 48)
  else if 97 ≤ c.toNat && c.toNat ≤ 102 then some (c.toNat - 87)
  else if 65 ≤ c.toNat && c.toNat ≤ 70 then some (c.toNat - 55)
  else none

/-- The escape sequence `JSON.stringify` emits for one character of a
string: quote and backslash are backslash-escaped, the named control
characters use their short escapes, the remaining control characters use
`\u00XX`, and every other character is emitted verbatim. -/
def escC (c : Char) : List Char :=
  if c = qC then [bsC, qC]
  else if c = bsC then [bsC, bsC]
  else if c = Char.ofNat 8 then [bsC, 'b']
  else if c = Char.ofNat 9 then [bsC, 't']
  else if c = Char.ofNat 10 then [bsC, 'n']
  else if c = Char.ofNat 12 then [bsC, 'f']
  else if c = Char.ofNat 13 then [bsC, 'r']
  else if c.toNat < 32 then
    [bsC, 'u', dChr 0, dChr 0, hexC (c.toNat / 16), hexC (c.toNat % 16)]
  else [c]

/-- The escaped body of a JSON string. -/
def escS (l : List Char) : List Char := (l.map escC).flatten

/-- The serialized form of a JSON string, quotes included. -/
def serStr (s : String) : List Char := qC :: escS s.data ++ [qC]

/-- The character denoted by a short escape sequence, if valid. -/
def unesc (c : Char) : Option Char :=
  if c = qC then some qC
  else if c = bsC then some bsC
  else if c = '/' then some '/'
  else if c = 'b' then some (Char.ofNat 8)
  else if c = 't' then some (Char.ofNat 9)
  else if c = 'n' then some (Char.ofNat 10)
  else if c = 'f' then some (Char.ofNat 12)
  else if c = 'r' then some (Char.ofNat 13) else none

/-- Parses the body of a JSON string after its opening quote, returning the
unescaped characters and the remaining input after the closing quote. -/
def parseStrBody : List Char → Option (List Char × List Char)
  | [] => none
  | c :: rest =>
      if c = qC then some ([], rest)
      else if c = bsC then
        match rest with
        | [] => none
        | e :: rest2 =>
            if e = 'u' then
              match rest2 with
              | h1 :: h2 :: h3 :: h4 :: rest3 =>
                  match hexV h1, hexV h2, hexV h3, hexV h4 with
                  | some a, some b, some g, some d =>
                      match parseStrBody rest3 with
                      | some (s, r) =>
                          some (Char.ofNat (((a * 16 + b) * 16 + g) * 16 + d) :: s, r)
                      | none => none
                  | _, _, _, _ => none
              | _ => none
            else
              match unesc e with
              | some uc =>
                  match parseStrBody rest2 with
                  | some (s, r) => some (uc :: s, r)
                  | none => none
              | none => none
      else if c.toNat < 32 then none
      else
        match parseStrBody rest with
        | some (s, r) => some (c :: s, r)
        | none => none

mutual

/-- A JSON value, as produced by `JSON.parse` and consumed by
`JSON.stringify` (numbers restricted to the naturals the application
serializes). -/
inductive Json where
  | null : Json
  | bool : Bool → Json
  | num : ℚ → Json
  | str : String → Json
  | arr : JsonList → Json
  | obj : JsonFields → Json

/-- The elements of a JSON array. -/
inductive JsonList where
  | nil : JsonList
  | cons : Json → JsonList → JsonList

/-- The key-value fields of a JSON object, in insertion order. -/
inductive JsonFields where
  | fnil : JsonFields
  | fcons : String → Json → JsonFields → JsonFields

end

mutual

/-- The compact (separator-free) serialization of a JSON value, as
`JSON.stringify` emits it. -/
def serJson : Json → List Char
  | Json.null => ['n', 'u', 'l', 'l']
  | Json.bool true => ['t', 'r', 'u', 'e']
  | Json.bool false => ['f', 'a', 'l', 's', 'e']
  | Json.num q => serNat q.num.toNat
  | Json.str s => serStr s
  | Json.arr JsonList.nil => [lbkC, rbkC]
  | Json.arr (JsonList.cons j tl) => lbkC :: serJson j ++ serList tl ++ [rbkC]
  | Json.obj JsonFields.fnil => [lbrC, rbrC]
  | Json.obj (JsonFields.fcons k v tl) =>
      lbrC :: serStr k ++ clC :: serJson v ++ serFields tl ++ [rbrC]

/-- Serializes the second and later elements of a JSON array, each behind
its separating comma. -/
def serList : JsonList → List Char
  | JsonList.nil => []
  | JsonList.cons j tl => cmC :: serJson j ++ serList tl

/-- Serializes the second and later fields of a JSON object, each behind
its separating comma. -/
def serFields : JsonFields → List Char
  | JsonFields.fnil => []
  | JsonFields.fcons k v tl => cmC :: serStr k ++ clC :: serJson v ++ serFields tl

end

mutual

/-- Fuel needed by `parseVal` to parse the serialization of a value. -/
def nval : Json → Nat
  | Json.null => 1
  | Json.bool _ => 1
  | Json.num _ => 1
  | Json.str _ => 1
  | Json.arr l => 1 + nelems l
  | Json.obj fs => 1 + nfields fs

/-- Fuel needed by `parseElems` for the elements of an array. -/
def nelems : JsonList → Nat
  | JsonList.nil => 0
  | JsonList.cons j tl => 1 + nval j + nelems tl

/-- Fuel needed by `parseFields` for the fields of an object. -/
def nfields : JsonFields → Nat
  | JsonFields.fnil => 0
  | JsonFields.fcons _ v tl => 1 + nval v + nfields tl

end

mutual

/-- Whether every number in a JSON value is a natural (nonnegative integer)
rational — true of everything the application serializes, where the only
numbers are `timestamp` fields. -/
def natNums : Json → Bool
  | Json.null => true
  | Json.bool _ => true
  | Json.num q => q.den == 1 && decide (0 ≤ q.num)
  | Json.str _ => true
  | Json.arr l => natNumsL l
  | Json.obj fs => natNumsF fs

/-- `natNums` over the elements of a JSON array. -/
def natNumsL : JsonList → Bool
  | JsonList.nil => true
  | JsonList.cons j tl => natNums j && natNumsL tl

/-- `natNums` over the fields of a JSON object. -/
def natNumsF : JsonFields → Bool
  | JsonFields.fnil => true
  | JsonFields.fcons _ v tl => natNums v && natNumsF tl

end

/-- Expects a fixed literal character sequence at the head of the input,
returning the remainder. -/
def expectLit : List Char → List Char → Option (List Char)
  | [], l => some l
  | _ :: _, [] => none
  | c :: cs, x :: xs => if x = c then expectLit cs xs else none

/-- Parses the remainder of an array after its opening bracket, given the
element parser for the lower fuel level. -/
def arrStep (pe : List Char → Option (JsonList × List Char))
    (input : List Char) : Option (Json × List Char) :=
  match skipWs input with
  | [] => none
  | c :: rest =>
      if c = rbkC then some (Json.arr JsonList.nil, rest)
      else
        match pe (c :: rest) with
        | some (l, r) => some (Json.arr l, r)
        | none => none

/-- Parses the remainder of an object after its opening brace, given the
field parser for the lower fuel level. -/
def objStep (pf : List Char → Option (JsonFields × List Char))
    (input : List Char) : Option (Json × List Char) :=
  match skipWs input with
  | [] => none
  | c :: rest =>
      if c = rbrC then some (Json.obj JsonFields.fnil, rest)
      else
        match pf (c :: rest) with
        | some (fs, r) => some (Json.obj fs, r)
        | none => none

/-- One step of the JSON value parser, given the element and field parsers
for the lower fuel level. -/
def valStep (pe : List Char → Option (JsonList × List Char))
    (pf : List Char → Option (JsonFields × List Char)) :
    List Char → Option (Json × List Char)
  | [] => none
  | c :: rest =>
      if c = qC then
        match parseStrBody rest with
        | some (s, r) => some (Json.str (String.mk s), r)
        | none => none
      else if c = lbkC then arrStep pe rest
      else if c = lbrC then objStep pf rest
      else if isDig c || c == '-' then
        match parseNumber (c :: rest) with
        | some (q, r) => some (Json.num q, r)
        | none => none
      else if c = 'n' then
        match expectLit ['u', 'l', 'l'] rest with
        | some r => some (Json.null, r)
        | none => none
      else if c = 't' then
        match expectLit ['r', 'u', 'e'] rest with
        | some r => some (Json.bool true, r)
        | none => none
      else if c = 'f' then
        match expectLit ['a', 'l', 's', 'e'] rest with
        | some r => some (Json.bool false, r)
        | none => none
      else none

/-- Continues an array after a parsed element: a comma means more
elements, a closing bracket ends the array. -/
def elemsTailStep (pe : List Char → Option (JsonList × List Char))
    (v : Json) (input : List Char) : Option (JsonList × List Char) :=
  match skipWs input with
  | [] => none
  | c :: rest =>
      if c = cmC then
        match pe rest with
        | some (l, r) => some (JsonList.cons v l, r)
        | none => none
      else if c = rbkC then some (JsonList.cons v JsonList.nil, rest)
      else none

/-- One step of the array element parser. -/
def elemsStep (pv : List Char → Option (Json × List Char))
    (pe : List Char → Option (JsonList × List Char))
    (input : List Char) : Option (JsonList × List Char) :=
  match pv (skipWs input) with
  | some (v, r) => elemsTailStep pe v r
  | none => none

/-- Continues an object after a parsed field: a comma means more fields, a
closing brace ends the object. -/
def fieldsTailStep (pf : List Char → Option (JsonFields × List Char))
    (k : String) (v : Json) (input : List Char) :
    Option (JsonFields × List Char) :=
  match skipWs input with
  | [] => none
  | c :: rest =>
      if c = cmC then
        match pf rest with
        | some (fs, r) => some (JsonFields.fcons k v fs, r)
        | none => none
      else if c = rbrC then some (JsonFields.fcons k v JsonFields.fnil, rest)
      else none

/-- After an object key, expects the colon and parses the field value. -/
def fieldSepStep (pv : List Char → Option (Json × List Char))
    (pf : List Char → Option (JsonFields × List Char))
    (k : String) (input : List Char) : Option (JsonFields × List Char) :=
  match skipWs input with
  | [] => none
  | c :: rest =>
      if c = clC then
        match pv (skipWs rest) with
        | some (v, r) => fieldsTailStep pf k v r
        | none => none
      else none

/-- One step of the object field parser. -/
def fieldsStep (pv : List Char → Option (Json × List Char))
    (pf : List Char → Option (JsonFields × List Char))
    (input : List Char) : Option (JsonFields × List Char) :=
  match skipWs input with
  | [] => none
  | c :: rest =>
      if c = qC then
        match parseStrBody rest with
        | some (k, r) => fieldSepStep pv pf (String.mk k) r
        | none => none
      else none

/-- The fuelled JSON parsers (value, array elements, object fields),
built by structural recursion on the fuel so that they compute. -/
def parsers : Nat →
    (List Char → Option (Json × List Char)) ×
    (List Char → Option (JsonList × List Char)) ×
    (List Char → Option (JsonFields × List Char))
  | 0 => (fun _ => none, fun _ => none, fun _ => none)
  | fuel + 1 =>
      (valStep (parsers fuel).2.1 (parsers fuel).2.2,
       elemsStep (parsers fuel).1 (parsers fuel).2.1,
       fieldsStep (parsers fuel).1 (parsers fuel).2.2)

/-- The fuelled parser for compact JSON values, the model of `JSON.parse`
on the fragment the application round-trips. -/
def parseVal (fuel : Nat) : List Char → Option (Json × List Char) :=
  (parsers fuel).1

/-- The fuelled parser for one or more comma-separated array elements up
to and including the closing bracket. -/
def parseElems (fuel : Nat) : List Char → Option (JsonList × List Char) :=
  (parsers fuel).2.1

/-- The fuelled parser for one or more comma-separated object fields up to
and including the closing brace. -/
def parseFields (fuel : Nat) : List Char → Option (JsonFields × List Char) :=
  (parsers fuel).2.2

/-- The model of `JSON.parse` on a whole store string: the value must
consume the entire input. -/
def jsonParse (s : String) : Option Json :=
  match parseVal (s.data.length + 1) (skipWs s.data) with
  | some (j, r) => if skipWs r = [] then some j else none
  | none => none

/-- The JSON object `JSON.stringify` produces for one `WordHistoryItem`,
fields in the declaration order of `addToHistory`. -/
def itemToJson (it : WordHistoryItem) : Json :=
  Json.obj (JsonFields.fcons "id" (Json.str it.id)
    (JsonFields.fcons "word" (Json.str it.word)
    (JsonFields.fcons "reading" (Json.str it.reading)
    (JsonFields.fcons "definition" (Json.str it.definition)
    (JsonFields.fcons "definition_jp" (Json.str it.definition_jp)
    (JsonFields.fcons "example_jp" (Json.str it.example_jp)
    (JsonFields.fcons "example_cn" (Json.str it.example_cn)
    (JsonFields.fcons "timestamp" (Json.num (it.timestamp : ℚ))
      JsonFields.fnil))))))))

/-- Packs a list of JSON values into a `JsonList`. -/
def jlOfList : List Json → JsonList
  | [] => JsonList.nil
  | j :: tl => JsonList.cons j (jlOfList tl)

/-- The JSON array `JSON.stringify` produces for a whole history
collection. -/
def historyToJson (C : List WordHistoryItem) : Json :=
  Json.arr (jlOfList (C.map itemToJson))

/-- Reads a `WordHistoryItem` back from a JSON value of exactly the shape
`itemToJson` produces. -/
def itemOfJson : Json → Option WordHistoryItem
  | Json.obj (JsonFields.fcons "id" (Json.str i)
      (JsonFields.fcons "word" (Json.str w)
      (JsonFields.fcons "reading" (Json.str r)
      (JsonFields.fcons "definition" (Json.str d)
      (JsonFields.fcons "definition_jp" (Json.str dj)
      (JsonFields.fcons "example_jp" (Json.str ej)
      (JsonFields.fcons "example_cn" (Json.str ec)
      (JsonFields.fcons "timestamp" (Json.num ts) JsonFields.fnil)))))))) =>
      if ts.den = 1 ∧ 0 ≤ ts.num then
        some { id := i, word := w, reading := r, definition := d,
               definition_jp := dj, example_jp := ej, example_cn := ec,
               timestamp := ts.num.toNat }
      else none
  | _ => none

/-- Reads a history back elementwise from the elements of a JSON array. -/
def historyItemsOfJl : JsonList → Option (List WordHistoryItem)
  | JsonList.nil => some []
  | JsonList.cons j tl =>
      match itemOfJson j, historyItemsOfJl tl with
      | some it, some rest => some (it :: rest)
      | _, _ => none

/-- Reads a whole history collection back from a JSON value, checking the
`WordHistoryItem`-sequence schema. -/
def historyOfJson : Json → Option (List WordHistoryItem)
  | Json.arr l => historyItemsOfJl l
  | _ => none

/-- The save-history effect: `localStorage.setItem('lyb_history',
JSON.stringify(state.history))` — the string written to the durable
store. -/
def persistHistory (C : List WordHistoryItem) : String :=
  String.mk (serJson (historyToJson C))

/-- The load-history effect: reads the durable store (`none` models an
absent key); a missing or empty string leaves the initial empty history in
place, a parse failure is caught and likewise leaves the empty history, and
any successfully parsed JSON value is installed as the history verbatim —
the source applies no schema validation to it. -/
def loadHistoryJson (store : Option String) : Json :=
  match store with
  | none => historyToJson []
  | some s =>
      if s = "" then historyToJson []
      else
        match jsonParse s with
        | some j => j
        | none => historyToJson []

/-- Whether a character list does not start with a decimal digit (the
follow-set condition after a serialized number). -/
def noLeadDigit : List Char → Bool
  | [] => true
  | c :: _ => !(isDig c || c == '.' || c == 'e' || c == 'E')

theorem isDig_ne {c c2 : Char} (h : isDig c = true) (h2 : isDig c2 = false) :
    c ≠ c2 := by
  intro he
  subst he
  rw [h] at h2
  cases h2

theorem appendHistory_mem_word (result : DictionaryResult) (now : Nat)
    (h : List WordHistoryItem)
    (hAny : h.any (fun item => item.word == result.word) = false) :
    appendHistory result now h = mkHistoryItem result now :: h := by
  unfold appendHistory
  rw [hAny]
  simp

/-- C1: history insertion is idempotent on the `word` field: appending a
second `DictionaryResult` with the same `word` returns the collection
unchanged, and when the word was not already present, the collection holds
exactly one entry for it — the one created by the first insertion. -/
theorem history_append_idempotent (h : List WordHistoryItem)
    (r1 r2 : DictionaryResult) (n1 n2 : Nat) (hw : r2.word = r1.word) :
    appendHistory r2 n2 (appendHistory r1 n1 h) = appendHistory r1 n1 h ∧
    ((∀ it ∈ h, it.word ≠ r1.word) →
      (appendHistory r1 n1 h).filter (fun it => it.word == r1.word)
        = [mkHistoryItem r1 n1]) := by
  constructor
  · by_cases hAny : h.any (fun item => item.word == r1.word) = true
    · have h1 : appendHistory r1 n1 h = h := by
        unfold appendHistory
        rw [hAny]
        simp
      rw [h1]
      unfold appendHistory
      have : h.any (fun item => item.word == r2.word) = true := by
        rw [hw]
        exact hAny
      rw [this]
      simp
    · have hAny2 : h.any (fun item => item.word == r1.word) = false := by
        simpa using hAny
      rw [appendHistory_mem_word r1 n1 h hAny2]
      unfold appendHistory
      have : ((mkHistoryItem r1 n1 :: h).any (fun item => item.word == r2.word)) = true := by
        simp [mkHistoryItem, hw]
      rw [this]
      simp
  · intro hNone
    have hAny : h.any (fun item => item.word == r1.word) = false := by
      rw [List.any_eq_false]
      intro it hit
      simpa using hNone it hit
    rw [appendHistory_mem_word r1 n1 h hAny]
    rw [List.filter_cons]
    have h1 : (mkHistoryItem r1 n1).word == r1.word := by
      simp [mkHistoryItem]
    rw [if_pos (by simpa using h1)]
    have h2 : h.filter (fun it => it.word == r1.word) = [] := by
      rw [List.filter_eq_nil_iff]
      intro it hit
      simpa using hNone it hit
    rw [h2]

/-- C1 witness: the theorem applied to two concrete results sharing a
`word`, starting from the empty collection. -/
theorem history_append_idempotent_witness :
    sampleResultA2.word = sampleResultA.word ∧
    (appendHistory sampleResultA2 2 (appendHistory sampleResultA 1 [])
        = appendHistory sampleResultA 1 [] ∧
      (appendHistory sampleResultA 1 []).filter
          (fun it => it.word == sampleResultA.word)
        = [mkHistoryItem sampleResultA 1]) :=
  ⟨rfl,
   (history_append_idempotent [] sampleResultA sampleResultA2 1 2 rfl).1,
   (history_append_idempotent [] sampleResultA sampleResultA2 1 2 rfl).2
     (by intro it hit; cases hit)⟩

/-- C2: history is ordered newest-first: after successfully appending a
result for word A and then one for a distinct word B, the collection is
B's entry, then A's entry, then the previous items — each successful append
prepends to the front. -/
theorem history_newest_first (h : List WordHistoryItem)
    (ra rb : DictionaryResult) (na nb : Nat)
    (hA : ∀ it ∈ h, it.word ≠ ra.word)
    (hB : ∀ it ∈ h, it.word ≠ rb.word)
    (hAB : rb.word ≠ ra.word) :
    appendHistory rb nb (appendHistory ra na h)
      = mkHistoryItem rb nb :: mkHistoryItem ra na :: h ∧
    (appendHistory rb nb (appendHistory ra na h)).head?
      = some (mkHistoryItem rb nb) ∧
    (appendHistory rb nb (appendHistory ra na h)).tail.head?
      = some (mkHistoryItem ra na) := by
  have hAnyA : h.any (fun item => item.word == ra.word) = false := by
    rw [List.any_eq_false]
    intro it hit
    simpa using hA it hit
  have step1 : appendHistory ra na h = mkHistoryItem ra na :: h :=
    appendHistory_mem_word ra na h hAnyA
  have hAnyB : ((mkHistoryItem ra na :: h).any
      (fun item => item.word == rb.word)) = false := by
    rw [List.any_eq_false]
    intro it hit
    rcases List.mem_cons.mp hit with hhd | htl
    · subst hhd
      simpa [mkHistoryItem] using fun e => hAB e.symm
    · simpa using hB it htl
  have step2 : appendHistory rb nb (mkHistoryItem ra na :: h)
      = mkHistoryItem rb nb :: mkHistoryItem ra na :: h :=
    appendHistory_mem_word rb nb _ hAnyB
  rw [step1, step2]
  exact ⟨rfl, rfl, rfl⟩

/-- C2 witness: the theorem applied to two concrete results with distinct
words, starting from the empty collection. -/
theorem history_newest_first_witness :
    sampleResultB.word ≠ sampleResultA.word ∧
    appendHistory sampleResultB 2 (appendHistory sampleResultA 1 [])
      = mkHistoryItem sampleResultB 2 :: mkHistoryItem sampleResultA 1 :: [] :=
  ⟨by decide,
   (history_newest_first [] sampleResultA sampleResultB 1 2
      (by intro it hit; cases hit) (by intro it hit; cases hit)
      (by decide)).1⟩

/-- C8: audio-phase re-trigger guard: while a phase's loading flag is true,
triggering the same phase again is a no-op — the state is unchanged and no
speech request is issued. -/
theorem audio_retrigger_noop (text : String) (t : AudioType)
    (s : DictionaryState) (hl : audioFlag t s = true) :
    handlePlayAudio text t s = (s, []) := by
  unfold handlePlayAudio
  rw [hl]
  simp

/-- C8 witness: the theorem applied at a state whose audio-for-word flag is
set. -/
theorem audio_retrigger_noop_witness :
    audioFlag AudioType.word loadingAudioState = true ∧
    handlePlayAudio "neko" AudioType.word loadingAudioState
      = (loadingAudioState, []) :=
  ⟨rfl, audio_retrigger_noop "neko" AudioType.word loadingAudioState rfl⟩

/-- C10: an empty or all-whitespace search term makes the search a no-op:
the handler returns before any mutation, so the whole component state
(history and error included) is unchanged and no request is issued. -/
theorem empty_search_noop (searchTerm : String) (now : Nat) (a : AppState)
    (outcome : Except Unit DictionaryResult)
    (ht : jsTrim searchTerm = "") :
    handleSearch searchTerm now a outcome = (a, []) := by
  unfold handleSearch
  rw [if_pos ht]

/-- C10 witness: the theorem applied to an all-whitespace search term
mixing ASCII spaces with the ideographic space U+3000. -/
theorem empty_search_noop_witness :
    jsTrim " 　 　" = "" ∧
    handleSearch " 　 　" 7 initialAppState (Except.ok sampleResultA)
      = (initialAppState, []) :=
  ⟨by decide,
   empty_search_noop " 　 　" 7 initialAppState (Except.ok sampleResultA)
     (by decide)⟩

/-- C9: the story-generation call receives exactly the first ten elements
of the newest-first history — at most the 10 most recent items, a prefix of
the collection, never more. -/
theorem story_request_bounded (s : DictionaryState)
    (outcome : Except Unit String) (ws : List WordHistoryItem)
    (hmem : Request.generateStory ws ∈ (handleGenerateStory s outcome).2) :
    ws = s.history.take 10 ∧ ws.length ≤ 10 ∧ ∃ t, ws ++ t = s.history := by
  have hws : ws = s.history.take 10 := by
    unfold handleGenerateStory at hmem
    by_cases hg : (s.history.length = 0 || s.isGeneratingStory) = true
    · rw [if_pos hg] at hmem
      simp at hmem
    · rw [if_neg hg] at hmem
      cases outcome with
      | ok story =>
          simp at hmem
          exact hmem
      | error e =>
          simp at hmem
          exact hmem
  refine ⟨hws, ?_, ?_⟩
  · rw [hws, List.length_take]
    exact min_le_left 10 s.history.length
  · exact ⟨s.history.drop 10, by rw [hws, List.take_append_drop]⟩

/-- C9 witness: the theorem applied at a twelve-item history. -/
theorem story_request_bounded_witness :
    Request.generateStory (twelveItemState.history.take 10)
      ∈ (handleGenerateStory twelveItemState (Except.ok "story")).2 ∧
    (twelveItemState.history.take 10).length ≤ 10 :=
  ⟨by decide,
   (story_request_bounded twelveItemState (Except.ok "story")
      (twelveItemState.history.take 10) (by decide)).2.1⟩

/-- C6 (counterexample): the claim that a story-generation failure sets no
global user-facing error message is false: from a one-item idle state with
no error, a failed story generation sets the global error field. -/
theorem story_failure_error_cex :
    oneItemState.error = none ∧
    (handleGenerateStory oneItemState (Except.error ())).1.error
      = some "Failed to generate story." :=
  ⟨rfl, by decide⟩

/-- C6 (amended): a story-generation failure resets the story phase (the
generating flag is cleared and no story is stored) but sets the global
user-facing error message "Failed to generate story." — it is not a
logged-only failure. -/
theorem story_failure_amended (s : DictionaryState)
    (h1 : s.history.length ≠ 0) (h2 : s.isGeneratingStory = false) :
    (handleGenerateStory s (Except.error ())).1.error
      = some "Failed to generate story." ∧
    (handleGenerateStory s (Except.error ())).1.isGeneratingStory = false ∧
    (handleGenerateStory s (Except.error ())).1.dailyStory = none := by
  unfold handleGenerateStory
  rw [if_neg (by simp [h1, h2])]
  exact ⟨rfl, rfl, rfl⟩

/-- C6 witness: the amended theorem applied at a one-item idle state. -/
theorem story_failure_amended_witness :
    oneItemState.history.length ≠ 0 ∧
    oneItemState.isGeneratingStory = false ∧
    (handleGenerateStory oneItemState (Except.error ())).1.error
      = some "Failed to generate story." :=
  ⟨by decide, rfl, (story_failure_amended oneItemState (by decide) rfl).1⟩

/-- C7: the image phase starts only after the text phase succeeds.  For a
non-empty search term: if the text-phase call fails, a user-facing error
message is set and no image-generation request is issued; if it succeeds,
the result is appended to the history and the image-generation request is
issued. -/
theorem search_image_after_text (searchTerm : String) (now : Nat)
    (a : AppState) (ht : jsTrim searchTerm ≠ "") :
    ((handleSearch searchTerm now a (Except.error ())).1.dict.error
        = some "Failed to find the word. Please try again." ∧
      ∀ w d, Request.generateImage w d
        ∉ (handleSearch searchTerm now a (Except.error ())).2) ∧
    (∀ res : DictionaryResult,
      (handleSearch searchTerm now a (Except.ok res)).1.dict.history
          = appendHistory res now a.dict.history ∧
      Request.generateImage res.word res.definition_cn
          ∈ (handleSearch searchTerm now a (Except.ok res)).2) := by
  constructor
  · constructor
    · unfold handleSearch
      rw [if_neg ht]
    · intro w d
      unfold handleSearch
      rw [if_neg ht]
      simp
  · intro res
    constructor
    · unfold handleSearch
      rw [if_neg ht]
      simp [addToHistory]
    · unfold handleSearch
      rw [if_neg ht]
      simp

/-- C7 witness: the theorem applied at a concrete non-empty search term,
the initial state and a concrete successful result. -/
theorem search_image_after_text_witness :
    jsTrim "neko" ≠ "" ∧
    (handleSearch "neko" 3 initialAppState (Except.error ())).1.dict.error
      = some "Failed to find the word. Please try again." ∧
    Request.generateImage sampleResultA.word sampleResultA.definition_cn
      ∈ (handleSearch "neko" 3 initialAppState (Except.ok sampleResultA)).2 :=
  ⟨by decide,
   (search_image_after_text "neko" 3 initialAppState (by decide)).1.1,
   ((search_image_after_text "neko" 3 initialAppState (by decide)).2 sampleResultA).2⟩

theorem encodePCM16LE_cons (s : Int) (tl : List Int) :
    encodePCM16LE (s :: tl)
      = (s % 65536).toNat % 256 :: (s % 65536).toNat / 256 :: encodePCM16LE tl := rfl

theorem pcmSample_encode (s : Int) (h1 : -32768 ≤ s) (h2 : s < 32768) :
    pcmSample ((s % 65536).toNat % 256) ((s % 65536).toNat / 256)
      = (s : ℚ) / 32768 := by
  have h0 : (0 : Int) ≤ s % 65536 := Int.emod_nonneg s (by norm_num)
  have hu : (((s % 65536).toNat : Int)) = s % 65536 := Int.toNat_of_nonneg h0
  simp only [pcmSample, Nat.mod_add_div]
  have hsigned : (if 32768 ≤ (s % 65536).toNat
      then ((s % 65536).toNat : Int) - 65536
      else ((s % 65536).toNat : Int)) = s := by
    by_cases hc : 32768 ≤ (s % 65536).toNat
    · rw [if_pos hc]
      have hc2 : (32768 : Int) ≤ ((s % 65536).toNat : Int) := by exact_mod_cast hc
      omega
    · rw [if_neg hc]
      have hc2 : ¬ (32768 : Int) ≤ ((s % 65536).toNat : Int) := by exact_mod_cast hc
      omega
  rw [hsigned]

theorem decode_even_total (bytes : List Nat) : bytes.length % 2 = 0 →
    ∃ qs, decodeAudioData bytes = Except.ok qs ∧ qs.length = bytes.length / 2 := by
  induction bytes using decodeAudioData.induct with
  | case1 =>
      intro _
      exact ⟨[], rfl, rfl⟩
  | case2 b =>
      intro h
      simp at h
  | case3 lo hi rest tail heq ih =>
      intro h
      have hrest : rest.length % 2 = 0 := by
        simp at h
        omega
      obtain ⟨qs, hq, hlen⟩ := ih hrest
      refine ⟨pcmSample lo hi :: qs, ?_, ?_⟩
      · simp [decodeAudioData, hq]
      · simp [hlen]
        omega
  | case4 lo hi rest e heq ih =>
      intro h
      have hrest : rest.length % 2 = 0 := by
        simp at h
        omega
      obtain ⟨qs, hq, _⟩ := ih hrest
      rw [hq] at heq
      cases heq

theorem decode_odd_error (bytes : List Nat) : bytes.length % 2 = 1 →
    ∃ e, decodeAudioData bytes = Except.error e := by
  induction bytes using decodeAudioData.induct with
  | case1 =>
      intro h
      simp at h
  | case2 b =>
      intro _
      exact ⟨_, rfl⟩
  | case3 lo hi rest tail heq ih =>
      intro h
      have hrest : rest.length % 2 = 1 := by
        simp at h
        omega
      obtain ⟨e, he⟩ := ih hrest
      rw [he] at heq
      cases heq
  | case4 lo hi rest e heq ih =>
      intro _
      refine ⟨e, ?_⟩
      simp [decodeAudioData, heq]

/-- C5: PCM decoding is correct and total exactly on even-length input:
the little-endian encoding of any in-range signed 16-bit sample list
decodes to those samples each divided by 32768 (the maximum magnitude of
the signed 16-bit range); every even-length byte sequence decodes to half
as many samples; every odd-length byte sequence fails with a format
error. -/
theorem pcm_decode_correct :
    (∀ samples : List Int, (∀ s ∈ samples, -32768 ≤ s ∧ s < 32768) →
        decodeAudioData (encodePCM16LE samples)
            = Except.ok (List.map (fun s : Int => (s : ℚ) / 32768) samples) ∧
        (encodePCM16LE samples).length = 2 * samples.length) ∧
    (∀ bytes : List Nat, bytes.length % 2 = 0 →
        ∃ qs, decodeAudioData bytes = Except.ok qs ∧
          qs.length = bytes.length / 2) ∧
    (∀ bytes : List Nat, bytes.length % 2 = 1 →
        ∃ e, decodeAudioData bytes = Except.error e) := by
  refine ⟨?_, decode_even_total, decode_odd_error⟩
  intro samples h
  induction samples with
  | nil => exact ⟨rfl, rfl⟩
  | cons s tl ih =>
      have hs := h s (List.mem_cons_self s tl)
      obtain ⟨ih1, ih2⟩ := ih (fun x hx => h x (List.mem_cons_of_mem s hx))
      constructor
      · rw [encodePCM16LE_cons]
        simp only [decodeAudioData, ih1, List.map_cons]
        rw [pcmSample_encode s hs.1 hs.2]
      · rw [encodePCM16LE_cons]
        simp only [List.length_cons, ih2]
        omega

/-- C5 witness: the theorem applied to a concrete sample list covering
zero, positive, negative and both extremes, and to a concrete odd-length
byte sequence. -/
theorem pcm_decode_correct_witness :
    (∀ s ∈ ([0, 1, -1, 32767, -32768] : List Int), -32768 ≤ s ∧ s < 32768) ∧
    decodeAudioData (encodePCM16LE [0, 1, -1, 32767, -32768])
      = Except.ok (List.map (fun s : Int => (s : ℚ) / 32768)
          [0, 1, -1, 32767, -32768]) ∧
    ∃ e, decodeAudioData [0] = Except.error e :=
  ⟨by decide,
   (pcm_decode_correct.1 [0, 1, -1, 32767, -32768] (by decide)).1,
   pcm_decode_correct.2.2 [0] (by decide)⟩

theorem dChr_facts : ∀ d, d < 10 →
    isDig (dChr d) = true ∧ dVal (dChr d) = d := by decide

theorem serNat_all_digits (n : Nat) : ∀ c ∈ serNat n, isDig c = true := by
  intro c hc
  unfold serNat at hc
  by_cases h0 : n = 0
  · rw [if_pos h0] at hc
    simp at hc
    subst hc
    decide
  · rw [if_neg h0] at hc
    rw [List.mem_map] at hc
    obtain ⟨d, hd, rfl⟩ := hc
    rw [List.mem_reverse] at hd
    exact (dChr_facts d (Nat.digits_lt_base (by norm_num) hd)).1

theorem serNat_ne_nil (n : Nat) : serNat n ≠ [] := by
  unfold serNat
  by_cases h0 : n = 0
  · rw [if_pos h0]
    simp
  · rw [if_neg h0]
    simp [Nat.digits_ne_nil_iff_ne_zero, h0]

theorem noLeadDigit_head {c : Char} {t : List Char}
    (hr : noLeadDigit (c :: t) = true) :
    isDig c = false ∧ c ≠ '.' ∧ c ≠ 'e' ∧ c ≠ 'E' := by
  simp [noLeadDigit] at hr
  refine ⟨?_, ?_, ?_, ?_⟩ <;> tauto

theorem takeDigits_append (l r : List Char)
    (hl : ∀ c ∈ l, isDig c = true) (hr : noLeadDigit r = true) :
    takeDigits (l ++ r) = (l, r) := by
  induction l with
  | nil =>
      simp only [List.nil_append]
      cases r with
      | nil => rfl
      | cons c t =>
          have : isDig c = false := (noLeadDigit_head hr).1
          simp [takeDigits, this]
  | cons c t ih =>
      have hc : isDig c = true := hl c (List.mem_cons_self c t)
      have ht : ∀ x ∈ t, isDig x = true := fun x hx => hl x (List.mem_cons_of_mem c hx)
      simp only [List.cons_append, takeDigits, hc, if_pos, List.append_eq]
      rw [ih ht]

theorem digitsVal_foldl (l : List Nat) (hl : ∀ d ∈ l, d < 10) (a : Nat) :
    List.foldl (fun acc c => acc * 10 + dVal c) a (l.reverse.map dChr)
      = a * 10 ^ l.length + Nat.ofDigits 10 l := by
  induction l generalizing a with
  | nil => simp [Nat.ofDigits_nil]
  | cons d t ih =>
      have hd : d < 10 := hl d (List.mem_cons_self d t)
      have ht : ∀ x ∈ t, x < 10 := fun x hx => hl x (List.mem_cons_of_mem d hx)
      rw [List.reverse_cons, List.map_append, List.foldl_append, ih ht a]
      simp only [List.map_cons, List.map_nil, List.foldl_cons, List.foldl_nil]
      rw [(dChr_facts d hd).2, Nat.ofDigits_cons]
      rw [List.length_cons, pow_succ]
      ring

theorem digitsVal_serNat (n : Nat) : digitsVal (serNat n) = n := by
  unfold serNat digitsVal
  by_cases h0 : n = 0
  · rw [if_pos h0]
    subst h0
    decide
  · rw [if_neg h0]
    rw [digitsVal_foldl (Nat.digits 10 n)
      (fun d hd => Nat.digits_lt_base (by norm_num) hd) 0]
    simp [Nat.ofDigits_digits]

theorem hexV_hexC : ∀ n, n < 16 → hexV (hexC n) = some n := by decide

theorem escS_cons (c : Char) (cs : List Char) :
    escS (c :: cs) = escC c ++ escS cs := by
  simp [escS]

theorem escS_nil : escS [] = [] := rfl

theorem parseStrBody_esc (cs : List Char) (rest : List Char) :
    parseStrBody (escS cs ++ qC :: rest) = some (cs, rest) := by
  induction cs with
  | nil =>
      rw [escS_nil, List.nil_append, parseStrBody.eq_def]
      simp
  | cons c cs ih =>
      have ihq : parseStrBody (escS cs ++ ('\x22' : Char) :: rest)
          = some (cs, rest) := ih
      rw [escS_cons, List.append_assoc]
      unfold escC
      split_ifs with h1 h2 h3 h4 h5 h6 h7 h8
      · subst h1
        rw [List.cons_append, List.cons_append, List.nil_append,
          parseStrBody.eq_def]
        simp +decide [unesc, qC, bsC, ihq]
      · subst h2
        rw [List.cons_append, List.cons_append, List.nil_append,
          parseStrBody.eq_def]
        simp +decide [unesc, qC, bsC, ihq]
      · subst h3
        rw [List.cons_append, List.cons_append, List.nil_append,
          parseStrBody.eq_def]
        simp +decide [unesc, qC, bsC, ihq]
      · subst h4
        rw [List.cons_append, List.cons_append, List.nil_append,
          parseStrBody.eq_def]
        simp +decide [unesc, qC, bsC, ihq]
      · subst h5
        rw [List.cons_append, List.cons_append, List.nil_append,
          parseStrBody.eq_def]
        simp +decide [unesc, qC, bsC, ihq]
      · subst h6
        rw [List.cons_append, List.cons_append, List.nil_append,
          parseStrBody.eq_def]
        simp +decide [unesc, qC, bsC, ihq]
      · subst h7
        rw [List.cons_append, List.cons_append, List.nil_append,
          parseStrBody.eq_def]
        simp +decide [unesc, qC, bsC, ihq]
      · have hv1 : hexV (hexC (c.toNat / 16)) = some (c.toNat / 16) :=
          hexV_hexC _ (by omega)
        have hv2 : hexV (hexC (c.toNat % 16)) = some (c.toNat % 16) :=
          hexV_hexC _ (by omega)
        have hv0 : hexV (dChr 0) = some 0 := by decide
        simp only [List.cons_append, List.nil_append]
        rw [parseStrBody.eq_def]
        simp +decide [qC, bsC, hv0, hv1, hv2, ihq]
        have hval : c.toNat / 16 * 16 + c.toNat % 16 = c.toNat := by omega
        rw [hval, Char.ofNat_toNat]
      · simp only [List.cons_append, List.nil_append]
        rw [parseStrBody.eq_def]
        simp [h1, h2, h8, ih]

theorem isDig_not_ws {c : Char} (h : isDig c = true) : isJsonWs c = false := by
  simp [isDig] at h
  simp [isJsonWs]
  omega

theorem skipWs_cons {c : Char} (t : List Char) (h : isJsonWs c = false) :
    skipWs (c :: t) = c :: t := by
  simp [skipWs, List.dropWhile_cons, h]

theorem serNat_cons (n : Nat) :
    ∃ c t, serNat n = c :: t ∧ isDig c = true := by
  cases hsn : serNat n with
  | nil => exact absurd hsn (serNat_ne_nil n)
  | cons c t =>
      refine ⟨c, t, rfl, ?_⟩
      apply serNat_all_digits n
      rw [hsn]
      exact List.mem_cons_self c t

theorem serNat_no_lead_zero (n : Nat) (h1 : 1 < (serNat n).length) :
    ((serNat n).head? == some (dChr 0)) = false := by
  by_cases h0 : n = 0
  · subst h0
    simp [serNat] at h1
  · unfold serNat at h1 ⊢
    rw [if_neg h0] at h1 ⊢
    have hne : Nat.digits 10 n ≠ [] := Nat.digits_ne_nil_iff_ne_zero.mpr h0
    have hhead : ((Nat.digits 10 n).reverse.map dChr).head?
        = some (dChr ((Nat.digits 10 n).getLast hne)) := by
      rw [List.head?_map, List.head?_reverse, List.getLast?_eq_getLast _ hne]
      rfl
    rw [hhead]
    have hd0 : (Nat.digits 10 n).getLast hne ≠ 0 :=
      Nat.getLast_digit_ne_zero 10 h0
    have hd10 : (Nat.digits 10 n).getLast hne < 10 :=
      Nat.digits_lt_base (by norm_num) (List.getLast_mem hne)
    simp only [beq_eq_false_iff_ne, ne_eq, Option.some.injEq]
    intro he
    have hv := (dChr_facts _ hd10).2
    rw [he] at hv
    have : dVal (dChr 0) = 0 := by decide
    rw [this] at hv
    exact hd0 hv.symm

theorem parseIntDigits_serNat (n : Nat) (rest : List Char)
    (hr : noLeadDigit rest = true) :
    parseIntDigits (serNat n ++ rest) = some (serNat n, rest) := by
  obtain ⟨c0, t0, hs, hc0⟩ := serNat_cons n
  have htd : takeDigits (serNat n ++ rest) = (serNat n, rest) :=
    takeDigits_append (serNat n) rest (serNat_all_digits n) hr
  unfold parseIntDigits
  rw [hs, List.cons_append]
  simp only [hc0, if_true, reduceIte]
  rw [show c0 :: (t0 ++ rest) = serNat n ++ rest by rw [hs, List.cons_append]]
  rw [htd]
  by_cases hlen : 1 < (serNat n).length
  · have hz := serNat_no_lead_zero n hlen
    rw [hs] at hz
    simp at hz
    simp [hlen, hs]
    exact fun _ => hz
  · rw [hs] at hlen
    simp at hlen
    simp [hs, hlen]

theorem parseNumber_serNat (n : Nat) (rest : List Char)
    (hr : noLeadDigit rest = true) :
    parseNumber (serNat n ++ rest) = some ((n : ℚ), rest) := by
  obtain ⟨c0, t0, hs, hc0⟩ := serNat_cons n
  have hminus : (c0 = '-') = False := by
    simp
    exact isDig_ne hc0 (by decide)
  unfold parseNumber
  rw [hs, List.cons_append]
  simp only [hminus, if_false, reduceIte]
  rw [show c0 :: (t0 ++ rest) = serNat n ++ rest by rw [hs, List.cons_append]]
  rw [parseIntDigits_serNat n rest hr]
  dsimp only
  cases rest with
  | nil => simp [digitsVal_serNat]
  | cons c t =>
      obtain ⟨_, h2, h3, h4⟩ := noLeadDigit_head hr
      simp [h2, h3, h4, digitsVal_serNat]

theorem nval_pos (j : Json) : 1 ≤ nval j := by
  cases j <;> simp [nval]

theorem serJson_head (j : Json) :
    ∃ c t, serJson j = c :: t ∧ c ≠ rbkC ∧ c ≠ rbrC ∧ isJsonWs c = false := by
  cases j with
  | num q =>
      obtain ⟨c0, t0, hs, hc0⟩ := serNat_cons q.num.toNat
      refine ⟨c0, t0, by simp [serJson, hs], ?_, ?_, isDig_not_ws hc0⟩
      · exact isDig_ne hc0 (by decide)
      · exact isDig_ne hc0 (by decide)
  | bool b => cases b <;> exact ⟨_, _, rfl, by decide, by decide, by decide⟩
  | arr l => cases l <;> exact ⟨_, _, rfl, by decide, by decide, by decide⟩
  | obj fs => cases fs <;> exact ⟨_, _, rfl, by decide, by decide, by decide⟩
  | null => exact ⟨_, _, rfl, by decide, by decide, by decide⟩
  | str s => exact ⟨_, _, rfl, by decide, by decide, by decide⟩

theorem skipWs_serJson (j : Json) (r : List Char) :
    skipWs (serJson j ++ r) = serJson j ++ r := by
  obtain ⟨c, t, hs, _, _, hws⟩ := serJson_head j
  rw [hs, List.cons_append, skipWs_cons _ hws, ← List.cons_append, ← hs]

theorem noLeadDigit_serList (xs : JsonList) (rest : List Char) :
    noLeadDigit (serList xs ++ rbkC :: rest) = true := by
  cases xs with
  | nil => simp +decide [serList, noLeadDigit, rbkC, isDig]
  | cons y ys => simp +decide [serList, noLeadDigit, cmC, isDig]

theorem noLeadDigit_serFields (fs : JsonFields) (rest : List Char) :
    noLeadDigit (serFields fs ++ rbrC :: rest) = true := by
  cases fs with
  | fnil => simp +decide [serFields, noLeadDigit, rbrC, isDig]
  | fcons k v tl => simp +decide [serFields, noLeadDigit, cmC, isDig]

theorem parseVal_succ (fuel : Nat) (input : List Char) :
    parseVal (fuel + 1) input
      = valStep (parseElems fuel) (parseFields fuel) input := rfl

theorem parseElems_succ (fuel : Nat) (input : List Char) :
    parseElems (fuel + 1) input
      = elemsStep (parseVal fuel) (parseElems fuel) input := rfl

theorem parseFields_succ (fuel : Nat) (input : List Char) :
    parseFields (fuel + 1) input
      = fieldsStep (parseVal fuel) (parseFields fuel) input := rfl

theorem parse_ser_fuel : ∀ fuel : Nat,
    (∀ (j : Json) (rest : List Char), nval j ≤ fuel → natNums j = true →
        noLeadDigit rest = true →
        parseVal fuel (serJson j ++ rest) = some (j, rest)) ∧
    (∀ (x : Json) (xs : JsonList) (rest : List Char),
        1 + nval x + nelems xs ≤ fuel → natNums x = true →
        natNumsL xs = true → noLeadDigit rest = true →
        parseElems fuel (serJson x ++ (serList xs ++ rbkC :: rest))
          = some (JsonList.cons x xs, rest)) ∧
    (∀ (k : String) (v : Json) (fs : JsonFields) (rest : List Char),
        1 + nval v + nfields fs ≤ fuel → natNums v = true →
        natNumsF fs = true → noLeadDigit rest = true →
        parseFields fuel
            (serStr k ++ clC :: serJson v ++ (serFields fs ++ rbrC :: rest))
          = some (JsonFields.fcons k v fs, rest)) := by
  intro fuel
  induction fuel with
  | zero =>
      refine ⟨?_, ?_, ?_⟩
      · intro j rest hf _ _
        have := nval_pos j
        omega
      · intro x xs rest hf _ _ _
        omega
      · intro k v fs rest hf _ _ _
        omega
  | succ f ih =>
      obtain ⟨pv, pe, pf⟩ := ih
      refine ⟨?_, ?_, ?_⟩
      · intro j rest hf hn hr
        cases j with
        | null =>
            simp only [serJson, List.cons_append, List.nil_append]
            rw [parseVal_succ]
            simp +decide [valStep, expectLit, qC, lbkC, lbrC, isDig]
        | bool b =>
            cases b with
            | true =>
                simp only [serJson, List.cons_append, List.nil_append]
                rw [parseVal_succ]
                simp +decide [valStep, expectLit, qC, lbkC, lbrC, isDig]
            | false =>
                simp only [serJson, List.cons_append, List.nil_append]
                rw [parseVal_succ]
                simp +decide [valStep, expectLit, qC, lbkC, lbrC, isDig]
        | num q =>
            simp only [natNums, Bool.and_eq_true, beq_iff_eq,
              decide_eq_true_eq] at hn
            have hq1 : ((q.num : ℚ)) = q := by
              have hd := Rat.num_div_den q
              rw [hn.1] at hd
              simpa using hd
            have hq2 : ((q.num.toNat : ℚ)) = q := by
              rw [← hq1]
              exact_mod_cast congrArg (fun z : ℤ => (z : ℚ))
                (Int.toNat_of_nonneg hn.2)
            obtain ⟨c0, t0, hs, hc0⟩ := serNat_cons q.num.toNat
            have h1 : c0 ≠ qC := isDig_ne hc0 (by decide)
            have h2 : c0 ≠ lbkC := isDig_ne hc0 (by decide)
            have h3 : c0 ≠ lbrC := isDig_ne hc0 (by decide)
            simp only [serJson]
            rw [hs, List.cons_append, parseVal_succ]
            simp only [valStep, h1, h2, h3, hc0, Bool.true_or, if_false,
              if_true, reduceIte, if_neg, not_false_iff]
            rw [show c0 :: (t0 ++ rest) = serNat q.num.toNat ++ rest by
              rw [hs, List.cons_append]]
            rw [parseNumber_serNat q.num.toNat rest hr]
            rw [hq2]
        | str s =>
            obtain ⟨sd⟩ := s
            simp only [serJson, serStr, List.cons_append, List.append_assoc,
              List.singleton_append]
            rw [parseVal_succ]
            simp only [valStep, reduceIte]
            rw [parseStrBody_esc]
            simp
        | arr l =>
            cases l with
            | nil =>
                simp only [serJson, List.cons_append, List.nil_append]
                rw [parseVal_succ]
                simp +decide [valStep, arrStep, skipWs, List.dropWhile_cons,
                  qC, lbkC]
            | cons x xs =>
                have hf2 : 1 + nval x + nelems xs ≤ f := by
                  simp [nval, nelems] at hf
                  omega
                simp only [natNums, natNumsL, Bool.and_eq_true] at hn
                obtain ⟨c0, t0, hs, hk, _, _⟩ := serJson_head x
                have hpe := pe x xs rest hf2 hn.1 hn.2 hr
                simp only [serJson, List.cons_append, List.append_assoc,
                  List.singleton_append]
                rw [parseVal_succ]
                simp +decide only [valStep, reduceIte]
                simp only [arrStep, List.nil_append]
                rw [skipWs_serJson x (serList xs ++ rbkC :: rest)]
                rw [hs, List.cons_append]
                dsimp only
                rw [if_neg hk]
                have hback : c0 :: (t0 ++ (serList xs ++ rbkC :: rest))
                    = serJson x ++ (serList xs ++ rbkC :: rest) := by
                  rw [hs, List.cons_append]
                rw [hback, hpe]
        | obj fs =>
            cases fs with
            | fnil =>
                simp only [serJson, List.cons_append, List.nil_append]
                rw [parseVal_succ]
                simp +decide [valStep, objStep, skipWs, List.dropWhile_cons,
                  qC, lbkC, lbrC]
            | fcons k v tl =>
                have hf2 : 1 + nval v + nfields tl ≤ f := by
                  simp [nval, nfields] at hf
                  omega
                simp only [natNums, natNumsF, Bool.and_eq_true] at hn
                have hpf := pf k v tl rest hf2 hn.1 hn.2 hr
                simp only [serJson, serStr, List.cons_append, List.append_assoc,
                  List.singleton_append]
                rw [parseVal_succ]
                simp +decide only [valStep, reduceIte]
                simp only [objStep, List.nil_append]
                rw [skipWs_cons _ (by decide : isJsonWs qC = false)]
                dsimp only
                rw [if_neg (by decide : ¬ qC = rbrC)]
                have hback : qC :: (escS k.data ++ qC :: clC ::
                      (serJson v ++ (serFields tl ++ rbrC :: rest)))
                    = serStr k ++ clC :: serJson v
                        ++ (serFields tl ++ rbrC :: rest) := by
                  simp [serStr, List.cons_append, List.append_assoc]
                rw [hback, hpf]
      · intro x xs rest hf hnx hnxs hr
        have hnl : noLeadDigit (serList xs ++ rbkC :: rest) = true :=
          noLeadDigit_serList xs rest
        have h1 := pv x (serList xs ++ rbkC :: rest) (by omega) hnx hnl
        rw [parseElems_succ]
        simp only [elemsStep]
        rw [skipWs_serJson x (serList xs ++ rbkC :: rest), h1]
        dsimp only
        cases xs with
        | nil =>
            simp only [serList, List.nil_append, elemsTailStep]
            rw [skipWs_cons _ (by decide : isJsonWs rbkC = false)]
            simp +decide [cmC, rbkC]
        | cons y ys =>
            have hf2 : 1 + nval y + nelems ys ≤ f := by
              simp [nelems] at hf
              omega
            simp only [natNumsL, Bool.and_eq_true] at hnxs
            have hpe := pe y ys rest hf2 hnxs.1 hnxs.2 hr
            simp only [serList, List.cons_append, List.append_assoc,
              elemsTailStep]
            rw [skipWs_cons _ (by decide : isJsonWs cmC = false)]
            simp +decide only [reduceIte]
            rw [hpe]
      · intro k v fs rest hf hnv hnfs hr
        obtain ⟨kd⟩ := k
        have hnf : noLeadDigit (serFields fs ++ rbrC :: rest) = true :=
          noLeadDigit_serFields fs rest
        have h1 := pv v (serFields fs ++ rbrC :: rest) (by omega) hnv hnf
        simp only [serStr, List.cons_append, List.append_assoc,
          List.singleton_append]
        rw [parseFields_succ]
        simp only [fieldsStep]
        rw [skipWs_cons _ (by decide : isJsonWs qC = false)]
        simp +decide only [reduceIte]
        rw [parseStrBody_esc]
        simp only [List.nil_append]
        simp only [fieldSepStep]
        rw [skipWs_cons _ (by decide : isJsonWs clC = false)]
        simp +decide only [reduceIte]
        rw [skipWs_serJson v (serFields fs ++ rbrC :: rest), h1]
        dsimp only
        cases fs with
        | fnil =>
            simp only [serFields, List.nil_append, fieldsTailStep]
            rw [skipWs_cons _ (by decide : isJsonWs rbrC = false)]
            simp +decide [cmC, rbrC]
        | fcons k2 v2 t2 =>
            have hf2 : 1 + nval v2 + nfields t2 ≤ f := by
              simp [nfields] at hf
              omega
            simp only [natNumsF, Bool.and_eq_true] at hnfs
            have hpf := pf k2 v2 t2 rest hf2 hnfs.1 hnfs.2 hr
            have hpf2 : parseFields f
                (serStr k2 ++ clC :: (serJson v2 ++ (serFields t2 ++ rbrC :: rest)))
                  = some (JsonFields.fcons k2 v2 t2, rest) := by
              simpa only [List.cons_append, List.append_assoc] using hpf
            simp only [serFields, List.cons_append, List.append_assoc,
              fieldsTailStep]
            rw [skipWs_cons _ (by decide : isJsonWs cmC = false)]
            simp +decide only [reduceIte]
            rw [hpf2]

mutual

theorem nval_le_ser (j : Json) : nval j ≤ (serJson j).length := by
  cases j with
  | null => decide
  | bool b => cases b <;> decide
  | num q =>
      have h := serNat_ne_nil q.num.toNat
      have : 0 < (serNat q.num.toNat).length := List.length_pos.mpr h
      simp [nval, serJson]
      omega
  | str s => simp [nval, serStr, serJson]
  | arr l =>
      cases l with
      | nil => decide
      | cons x xs =>
          have h1 := nval_le_ser x
          have h2 := nelems_le_ser xs
          simp [nval, nelems, serJson]
          omega
  | obj fs =>
      cases fs with
      | fnil => decide
      | fcons k v tl =>
          have h1 := nval_le_ser v
          have h2 := nfields_le_ser tl
          simp [nval, nfields, serJson, serStr]
          omega

theorem nelems_le_ser (l : JsonList) : nelems l ≤ (serList l).length := by
  cases l with
  | nil => decide
  | cons x xs =>
      have h1 := nval_le_ser x
      have h2 := nelems_le_ser xs
      simp [nelems, serList]
      omega

theorem nfields_le_ser (fs : JsonFields) : nfields fs ≤ (serFields fs).length := by
  cases fs with
  | fnil => decide
  | fcons k v tl =>
      have h1 := nval_le_ser v
      have h2 := nfields_le_ser tl
      simp [nfields, serFields, serStr]
      omega

end

theorem jsonParse_ser (j : Json) (hn : natNums j = true) :
    jsonParse (String.mk (serJson j)) = some j := by
  unfold jsonParse
  have hdata : (String.mk (serJson j)).data = serJson j := rfl
  rw [hdata]
  have hskip : skipWs (serJson j) = serJson j := by
    have := skipWs_serJson j []
    simpa using this
  rw [hskip]
  have h := (parse_ser_fuel ((serJson j).length + 1)).1 j []
    (by have := nval_le_ser j; omega) hn rfl
  rw [List.append_nil] at h
  rw [h]
  rfl

theorem itemOfJson_itemToJson (it : WordHistoryItem) :
    itemOfJson (itemToJson it) = some it := by
  have hden : ((it.timestamp : ℚ)).den = 1 := Rat.den_natCast it.timestamp
  have hnum : ((it.timestamp : ℚ)).num = (it.timestamp : ℤ) :=
    Rat.num_natCast it.timestamp
  simp [itemToJson, itemOfJson, hden, hnum]

theorem natNums_itemToJson (it : WordHistoryItem) :
    natNums (itemToJson it) = true := by
  have hden : ((it.timestamp : ℚ)).den = 1 := Rat.den_natCast it.timestamp
  have hnum : ((it.timestamp : ℚ)).num = (it.timestamp : ℤ) :=
    Rat.num_natCast it.timestamp
  simp [itemToJson, natNums, natNumsF, hden, hnum]

theorem natNums_historyToJson (C : List WordHistoryItem) :
    natNums (historyToJson C) = true := by
  unfold historyToJson
  simp only [natNums]
  induction C with
  | nil => rfl
  | cons it tl ih =>
      simp only [List.map_cons, jlOfList, natNumsL, Bool.and_eq_true]
      exact ⟨natNums_itemToJson it, ih⟩

theorem historyItemsOfJl_map (C : List WordHistoryItem) :
    historyItemsOfJl (jlOfList (C.map itemToJson)) = some C := by
  induction C with
  | nil => rfl
  | cons it tl ih =>
      simp only [List.map_cons, jlOfList, historyItemsOfJl,
        itemOfJson_itemToJson, ih]

theorem historyOfJson_toJson (C : List WordHistoryItem) :
    historyOfJson (historyToJson C) = some C := by
  unfold historyToJson historyOfJson
  exact historyItemsOfJl_map C

theorem persistHistory_ne_empty (C : List WordHistoryItem) :
    persistHistory C ≠ "" := by
  unfold persistHistory
  obtain ⟨c, t, hs, _, _, _⟩ := serJson_head (historyToJson C)
  rw [hs]
  intro h
  have : (c :: t : List Char) = [] := congrArg String.data h
  cases this

/-- C3: persistence round-trips: for every history collection, writing it
to the durable store with the save effect and reading it back with the
load effect reconstructs the same collection, in content and order — the
loaded JSON value is exactly the serialized one and decodes to the original
collection. -/
theorem persistence_roundtrip (C : List WordHistoryItem) :
    loadHistoryJson (some (persistHistory C)) = historyToJson C ∧
    historyOfJson (loadHistoryJson (some (persistHistory C))) = some C := by
  have hparse : jsonParse (persistHistory C) = some (historyToJson C) :=
    jsonParse_ser (historyToJson C) (natNums_historyToJson C)
  have hne := persistHistory_ne_empty C
  have hload : loadHistoryJson (some (persistHistory C)) = historyToJson C := by
    unfold loadHistoryJson
    dsimp only
    rw [if_neg hne, hparse]
  rw [hload]
  exact ⟨rfl, historyOfJson_toJson C⟩

/-- C4 (counterexample): the claim that every schema-invalid store string
loads as the empty sequence is false: the store string "42" is valid JSON
but not a `WordHistoryItem` sequence, yet the load effect installs the
parsed value 42 as the history instead of the empty collection. -/
theorem load_schema_invalid_cex :
    loadHistoryJson (some "42") = Json.num 42 ∧
    historyOfJson (Json.num 42) = none ∧
    loadHistoryJson (some "42") ≠ historyToJson [] := by
  refine ⟨rfl, rfl, ?_⟩
  intro h
  rw [show loadHistoryJson (some "42") = Json.num 42 from rfl] at h
  exact Json.noConfusion h

/-- C4 (amended): on an absent key or a store string that fails JSON
parsing, the load effect yields the empty history and does not raise; but a
string that parses as JSON is installed as the history verbatim, with no
schema validation. -/
theorem load_malformed_amended :
    loadHistoryJson none = historyToJson [] ∧
    (∀ s : String, jsonParse s = none → loadHistoryJson (some s) = historyToJson []) ∧
    (∀ s : String, ∀ j : Json, s ≠ "" → jsonParse s = some j →
        loadHistoryJson (some s) = j) := by
  refine ⟨rfl, ?_, ?_⟩
  · intro s hs
    unfold loadHistoryJson
    dsimp only
    by_cases he : s = ""
    · rw [if_pos he]
    · rw [if_neg he, hs]
  · intro s j hne hp
    unfold loadHistoryJson
    dsimp only
    rw [if_neg hne, hp]

/-- C4 witness: the amended theorem applied to a concrete non-JSON store
string. -/
theorem load_malformed_amended_witness :
    jsonParse "oops" = none ∧
    loadHistoryJson (some "oops") = historyToJson [] :=
  ⟨rfl, load_malformed_amended.2.1 "oops" rfl⟩
